import Mathlib

/-!
Verification of the subtitle-translation pipeline (`translate/main.py` and
`translate/OpenAITranslator.py`).  Strings are modelled as `List Char`; the
Python whitespace class, `str.strip`, `str.isdigit` and the two regular
expressions are modelled over ASCII.  The remote service is modelled as an
oracle: each call attempt either raises an exception (`none`) or returns a
response string (`some r`).
-/

/-- Whitespace characters recognised by Python's `str.strip` and `\s`
(ASCII fragment). -/
def isSpaceChar (c : Char) : Bool :=
  c = ' ' || c = '\t' || c = '\n' || c = '\r' || c = '\x0b' || c = '\x0c'

/-- Decimal digit test, modelling `\d` and `str.isdigit` (ASCII fragment). -/
def isDigitChar (c : Char) : Bool :=
  '0' ≤ c && c ≤ '9'

/-- Remove trailing whitespace. -/
def stripEnd (s : List Char) : List Char :=
  (s.reverse.dropWhile isSpaceChar).reverse

/-- Python `str.strip()`: remove leading and trailing whitespace. -/
def strip (s : List Char) : List Char :=
  stripEnd (s.dropWhile isSpaceChar)

/-- Check whether `pat` occurs at the start of `s`. -/
def startsWith : List Char → List Char → Bool
  | [], _ => true
  | _ :: _, [] => false
  | p :: ps, c :: cs => p = c && startsWith ps cs

/-- Check whether `pat` occurs anywhere in `s` (for nonempty `pat`). -/
def containsB (pat : List Char) : List Char → Bool
  | [] => false
  | c :: cs => startsWith pat (c :: cs) || containsB pat cs

/-- Suffix of `s` after the first occurrence of `pat`, if any
(the `[-1]` element of `re.split(pat, s, 1)` when the split happens). -/
def findSuffixAfter (pat : List Char) : List Char → Option (List Char)
  | [] => none
  | c :: cs =>
      if startsWith pat (c :: cs) then some (List.drop pat.length (c :: cs))
      else findSuffixAfter pat cs

/-- Suffix of `s` after the last occurrence of `pat`, if any.  This is the
reading the specification describes ("the suffix after the last occurrence");
it is compared against `findSuffixAfter`, which is what the code computes. -/
def findSuffixAfterLast (pat : List Char) : List Char → Option (List Char)
  | [] => none
  | c :: cs =>
      match findSuffixAfterLast pat cs with
      | some b => some b
      | none =>
          if startsWith pat (c :: cs) then some (List.drop pat.length (c :: cs))
          else none

/-- Python `s.split("\n")`: split on every newline, keeping empty pieces
(`"".split("\n") == [""]`). -/
def splitLines : List Char → List (List Char)
  | [] => [[]]
  | c :: cs =>
      if c = '\n' then [] :: splitLines cs
      else
        match splitLines cs with
        | [] => [[c]]
        | l :: ls => (c :: l) :: ls

/-- The marker `</think>`. -/
def thinkMarker : List Char := ['<', '/', 't', 'h', 'i', 'n', 'k', '>']

/-- The sentinel `"[PARSE ERROR]"` used by `_parse_response`. -/
def parseErrorSentinel : List Char :=
  ['[', 'P', 'A', 'R', 'S', 'E', ' ', 'E', 'R', 'R', 'O', 'R', ']']

/-- Regex `^\d+\.\s*(.*)` applied to one line, returning `group(1).strip()`:
a maximal nonempty digit run, a literal dot, then the rest with leading
whitespace dropped and the capture stripped. -/
def matchNumbered (line : List Char) : Option (List Char) :=
  let ds := line.takeWhile isDigitChar
  let rest := line.dropWhile isDigitChar
  if ds.isEmpty then none
  else
    match rest with
    | '.' :: tail => some (strip (tail.dropWhile isSpaceChar))
    | _ => none

/-- Body of the response after `response = re.split(r"</think>", response, 1)[-1].strip()`:
keep the suffix after the first `</think>` (the whole string when absent),
then strip. -/
def parseBody (response : List Char) : List Char :=
  strip ((findSuffixAfter thinkMarker response).getD response)

/-- All captures of numbered lines in the stripped response body, in order of
appearance (`parsed_lines` in `_parse_response`). -/
def parsedLines (response : List Char) : List (List Char) :=
  (splitLines (parseBody response)).filterMap matchNumbered

/-- Model of `OpenAITranslator._parse_response`: pad with the sentinel when
too few numbered lines were found, truncate when too many. -/
def parseResponse (response : List Char) (expectedLength : Nat) : List (List Char) :=
  let pl := parsedLines response
  if pl.length < expectedLength then
    pl ++ List.replicate (expectedLength - pl.length) parseErrorSentinel
  else
    pl.take expectedLength

/-- Model of `OpenAITranslator._is_valid_translation`: valid iff the parsed
list has the same length as the input list. -/
def isValidTranslation (texts parsed : List (List Char)) : Bool :=
  parsed.length == texts.length

/-- Retry loop of `translate_batch` over the oracle of attempt behaviours:
`none` models an exception raised during the attempt, `some r` a response
string `r`.  A valid parse is returned; otherwise the next attempt runs;
when attempts are exhausted the original `texts` are returned. -/
def translateBatchAux (texts : List (List Char)) : List (Option (List Char)) → List (List Char)
  | [] => texts
  | none :: rest => translateBatchAux texts rest
  | some r :: rest =>
      let parsed := parseResponse r texts.length
      if isValidTranslation texts parsed then parsed
      else translateBatchAux texts rest

/-- Model of `OpenAITranslator.translate_batch` with `max_retries = 3`. -/
def translateBatch (texts : List (List Char)) (attempts : List (Option (List Char))) : List (List Char) :=
  translateBatchAux texts (attempts.take 3)

/-- An attempt "fails" in the sense used by the specification's claims:
it raises an exception, or its response parses to fewer numbered lines than
requested, or it fails the length validation. -/
def attemptFailsSpec (n : Nat) : Option (List Char) → Bool
  | none => true
  | some r => decide ((parsedLines r).length < n) || !((parseResponse r n).length == n)

/-- Character class of the regex `[\s\.,!?;:\"'-]` in `should_translate`. -/
def isPunctChar (c : Char) : Bool :=
  isSpaceChar c || c = '.' || c = ',' || c = '!' || c = '?' || c = ';' ||
    c = ':' || c = '"' || c = '\'' || c = '-'

/-- Python `str.isdigit` (ASCII fragment): nonempty and all digits. -/
def isDigitStr (l : List Char) : Bool :=
  !l.isEmpty && l.all isDigitChar

/-- Python `re.fullmatch(r"[\s\.,!?;:\"'-]+", line)`: nonempty and all
characters in the punctuation/whitespace class. -/
def isPunctOnly (l : List Char) : Bool :=
  !l.isEmpty && l.all isPunctChar

/-- Consume one expected character. -/
def expectChar (c : Char) : List Char → Option (List Char)
  | x :: rest => if x = c then some rest else none
  | [] => none

/-- Consume exactly `n` digits. -/
def expectDigits : Nat → List Char → Option (List Char)
  | 0, l => some l
  | n + 1, x :: rest => if isDigitChar x then expectDigits n rest else none
  | _ + 1, [] => none

/-- Consume one whitespace character (`\s`). -/
def expectSpace : List Char → Option (List Char)
  | x :: rest => if isSpaceChar x then some rest else none
  | [] => none

/-- Consume one timestamp `\d{2}:\d{2}:\d{2},\d{3}`. -/
def expectTimestamp (l : List Char) : Option (List Char) :=
  (expectDigits 2 l).bind (expectChar ':') |>.bind (expectDigits 2)
    |>.bind (expectChar ':') |>.bind (expectDigits 2)
    |>.bind (expectChar ',') |>.bind (expectDigits 3)

/-- Regex `^\d{2}:\d{2}:\d{2},\d{3}\s-->\s\d{2}:\d{2}:\d{2},\d{3}$`
matched against the whole (stripped) line: the anchored pattern must consume
the entire input. -/
def isTimestampLine (l : List Char) : Bool :=
  ((expectTimestamp l).bind expectSpace |>.bind (expectChar '-')
      |>.bind (expectChar '-') |>.bind (expectChar '>')
      |>.bind expectSpace |>.bind expectTimestamp) == some []

/-- Model of `should_translate` in `main.py`: strip the line, then require it
to be nonempty, not all digits, not a timestamp range, and not composed only
of punctuation/whitespace. -/
def should_translate (line : List Char) : Bool :=
  let l := strip line
  !l.isEmpty && !isDigitStr l && !isTimestampLine l && !isPunctOnly l

/-- Specification-side, declarative shape of the timestamp-range format
`HH:MM:SS,mmm --> HH:MM:SS,mmm`: two digit-groups-with-separators timestamps
joined by `-->` with one whitespace character on each side, covering the
whole string. -/
def specTimestampRange (l : List Char) : Prop :=
  ∃ hh1 mm1 ss1 ms1 hh2 mm2 ss2 ms2 : List Char,
    ∃ c1 c2 : Char,
      isSpaceChar c1 = true ∧ isSpaceChar c2 = true ∧
      l = hh1 ++ ':' :: (mm1 ++ ':' :: (ss1 ++ ',' ::
            (ms1 ++ c1 :: '-' :: '-' :: '>' :: c2 ::
              (hh2 ++ ':' :: (mm2 ++ ':' :: (ss2 ++ ',' :: ms2)))))) ∧
      hh1.length = 2 ∧ mm1.length = 2 ∧ ss1.length = 2 ∧ ms1.length = 3 ∧
      hh2.length = 2 ∧ mm2.length = 2 ∧ ss2.length = 2 ∧ ms2.length = 3 ∧
      (∀ c ∈ hh1, isDigitChar c = true) ∧ (∀ c ∈ mm1, isDigitChar c = true) ∧
      (∀ c ∈ ss1, isDigitChar c = true) ∧ (∀ c ∈ ms1, isDigitChar c = true) ∧
      (∀ c ∈ hh2, isDigitChar c = true) ∧ (∀ c ∈ mm2, isDigitChar c = true) ∧
      (∀ c ∈ ss2, isDigitChar c = true) ∧ (∀ c ∈ ms2, isDigitChar c = true)

/-- Specification-side classifier, stated from the spec's words: a line is
non-translatable iff, after trimming whitespace, it is empty, or consists
solely of digits, or matches the timestamp-range format, or consists
entirely of characters from the fixed punctuation/whitespace set. -/
def specNonTranslatable (line : List Char) : Prop :=
  strip line = [] ∨ (strip line ≠ [] ∧ ∀ c ∈ strip line, isDigitChar c = true) ∨
    specTimestampRange (strip line) ∨
    (strip line ≠ [] ∧ ∀ c ∈ strip line, isPunctChar c = true)

/-- Loop body of `get_pending_lines`, carrying the running index. -/
def pendingAux (idx : Nat) : List (List Char) → List (Nat × List Char)
  | [] => []
  | l :: ls =>
      if should_translate l then (idx, l) :: pendingAux (idx + 1) ls
      else pendingAux (idx + 1) ls

/-- Model of `get_pending_lines`: the (index, line) pairs of the lines that
need translation, in file order. -/
def get_pending_lines (lines : List (List Char)) : List (Nat × List Char) :=
  pendingAux 0 lines

/-- Slicing loop of `split_into_chunks` for a positive chunk size `k + 1`:
each step takes `pending[i : i + size]` and advances by `size`. -/
def chunkList (k : Nat) : List α → List (List α)
  | [] => []
  | x :: xs => (x :: xs).take (k + 1) :: chunkList k (xs.drop k)
termination_by l => l.length
decreasing_by
  simp only [List.length_cons, List.length_drop]
  omega

/-- Model of `split_into_chunks`, keeping Python's `range` semantics for the
step argument: a positive size slices the list; `size = 0` raises
`ValueError` inside `range`; a negative size makes `range(0, n, size)` empty,
so the comprehension silently yields `[]`. -/
def split_into_chunks (pending : List (Nat × List Char)) (size : Int) :
    Except String (List (List (Nat × List Char))) :=
  if 0 < size then Except.ok (chunkList (size.toNat - 1) pending)
  else if size = 0 then Except.error "range() arg 3 must not be zero"
  else Except.ok []

/-- Model of `translate_chunk` given the list the translator returned:
`zip(chunk, translated_texts)` pairs positions with translated texts,
truncating at the shorter list. -/
def translate_chunk (tr : List (List Char) → List (List Char))
    (chunk : List (Nat × List Char)) : List (Nat × List Char) :=
  (chunk.zip (tr (chunk.map Prod.snd))).map (fun p => (p.1.1, p.2))

/-- Lookup in the accumulated dictionary, last write wins (Python `dict`
built by successive `update` calls, entries listed in insertion order). -/
def dfind (m : List (Nat × List Char)) (i : Nat) : Option (List Char) :=
  match m with
  | [] => none
  | (k, v) :: rest =>
      match dfind rest i with
      | some w => some w
      | none => if k = i then some v else none

/-- Merged `all_translations` dictionary after the chunks in `completed`
finished, in that completion order: each completion appends its chunk's
entries (`dict.update`). -/
def mergedTranslations (tr : List (List Char) → List (List Char))
    (completed : List (List (Nat × List Char))) : List (Nat × List Char) :=
  (completed.map (translate_chunk tr)).flatten

/-- Final reassembly loop of `do_translate`: for every index, the merged
translation when present, otherwise the original line. -/
def buildFinal (m : List (Nat × List Char)) (idx : Nat) :
    List (List Char) → List (List Char)
  | [] => []
  | l :: ls => (dfind m idx).getD l :: buildFinal m (idx + 1) ls

/-- Pure core of `do_translate`: read lines, classify, chunk with size
`k + 1`, let the chunks complete in the order given by `completed`
(any permutation of the chunk list), merge, and reassemble. -/
def do_translate_core (tr : List (List Char) → List (List Char))
    (lines : List (List Char)) (completed : List (List (Nat × List Char))) :
    List (List Char) :=
  buildFinal (mergedTranslations tr completed) 0 lines

/-- Python `name.endswith(".srt")`: the reversed name starts with the
reversed pattern. -/
def endsWithSrt (name : List Char) : Bool :=
  startsWith ".srt".data.reverse name.reverse

/-- Python `str.replace`, replacing every non-overlapping occurrence of the
nonempty pattern from the left. -/
def replaceAll (pat rep : List Char) : List Char → List Char
  | [] => []
  | c :: cs =>
      if startsWith pat (c :: cs) then rep ++ replaceAll pat rep (cs.drop (pat.length - 1))
      else c :: replaceAll pat rep cs
termination_by l => l.length
decreasing_by
  · simp only [List.length_cons]
    have := List.length_drop (pat.length - 1) cs
    omega
  · simp only [List.length_cons]
    omega

/-- Output file name of `process_directory`:
`file_name.replace(".srt", "_cn.srt")`. -/
def outName (name : List Char) : List Char :=
  replaceAll ".srt".data "_cn.srt".data name

/-- Model of `process_directory` over a file-system state `fs` mapping paths
to contents.  `translateFile` abstracts `do_translate` (reading the input and
producing the output content); the second component records the input files
for which `do_translate` — and hence the translation client — was invoked. -/
def process_directory (translateFile : List Char → List Char)
    (names : List (List Char)) (fs : List Char → Option (List Char)) :
    (List Char → Option (List Char)) × List (List Char) :=
  match names with
  | [] => (fs, [])
  | name :: rest =>
      if endsWithSrt name then
        if (fs (outName name)).isSome then process_directory translateFile rest fs
        else
          ((process_directory translateFile rest
              (fun p => if p = outName name then some (translateFile name)
                        else fs p)).1,
            name :: (process_directory translateFile rest
              (fun p => if p = outName name then some (translateFile name)
                        else fs p)).2)
      else process_directory translateFile rest fs

/-! ### Supporting lemmas: the translation client -/

theorem parseResponse_length (r : List Char) (n : Nat) :
    (parseResponse r n).length = n := by
  unfold parseResponse
  by_cases h : (parsedLines r).length < n
  · simp only [h, if_pos, List.length_append, List.length_replicate]
    omega
  · simp only [h, if_neg, not_false_eq_true, List.length_take]
    omega

theorem translateBatchAux_length (texts : List (List Char))
    (atts : List (Option (List Char))) :
    (translateBatchAux texts atts).length = texts.length := by
  induction atts with
  | nil => rfl
  | cons a rest ih =>
      cases a with
      | none => exact ih
      | some r =>
          simp only [translateBatchAux]
          by_cases h : isValidTranslation texts (parseResponse r texts.length) = true
          · simp only [h, if_pos, parseResponse_length]
          · simp only [h, if_neg, not_false_eq_true]
            exact ih

theorem translateBatchAux_all_none (texts : List (List Char)) :
    ∀ atts : List (Option (List Char)), (∀ a ∈ atts, a = none) →
      translateBatchAux texts atts = texts := by
  intro atts h
  induction atts with
  | nil => rfl
  | cons a rest ih =>
      have ha : a = none := h a (List.mem_cons_self a rest)
      subst ha
      exact ih (fun a hmem => h a (List.mem_cons_of_mem _ hmem))

theorem startsWith_eq_append (p : List Char) :
    ∀ s : List Char, startsWith p s = true → s = p ++ s.drop p.length := by
  induction p with
  | nil => intro s _; simp
  | cons x ps ih =>
      intro s hs
      cases s with
      | nil => simp [startsWith] at hs
      | cons c cs =>
          simp only [startsWith, Bool.and_eq_true, decide_eq_true_eq] at hs
          obtain ⟨hx, hrest⟩ := hs
          subst hx
          have := ih cs hrest
          simp only [List.length_cons, List.cons_append, List.drop_succ_cons]
          exact congrArg (x :: ·) this

theorem startsWith_append_extend (p : List Char) :
    ∀ s t : List Char, startsWith p s = true → startsWith p (s ++ t) = true := by
  induction p with
  | nil => intro s t _; rfl
  | cons x ps ih =>
      intro s t hs
      cases s with
      | nil => simp [startsWith] at hs
      | cons c cs =>
          simp only [startsWith, Bool.and_eq_true] at hs ⊢
          exact ⟨hs.1, ih cs t hs.2⟩

/-! ### Claim C10 -/

/-- C10: for every input list `texts` and every behaviour of the remote
service (any response string or an exception on each attempt),
`translate_batch` returns a list whose length equals `len(texts)`, and
consequently the `zip` in `translate_chunk` pairs every position of the chunk
with a returned text (the mapped keys are exactly the chunk's positions). -/
theorem translateBatch_length_and_zip_total (texts : List (List Char))
    (attempts : List (Option (List Char))) :
    (translateBatch texts attempts).length = texts.length ∧
    ∀ chunk : List (Nat × List Char),
      (translate_chunk (fun ts => translateBatch ts attempts) chunk).map Prod.fst =
        chunk.map Prod.fst := by
  constructor
  · exact translateBatchAux_length texts (attempts.take 3)
  · intro chunk
    unfold translate_chunk
    have hlen : chunk.length ≤ (translateBatch (chunk.map Prod.snd) attempts).length := by
      unfold translateBatch
      rw [translateBatchAux_length]
      simp
    calc ((chunk.zip (translateBatch (chunk.map Prod.snd) attempts)).map
            (fun p => (p.1.1, p.2))).map Prod.fst
        = (chunk.zip (translateBatch (chunk.map Prod.snd) attempts)).map
            (fun p => p.1.1) := by
          rw [List.map_map]
          rfl
      _ = ((chunk.zip (translateBatch (chunk.map Prod.snd) attempts)).map
            Prod.fst).map Prod.fst := by
          rw [List.map_map]
          rfl
      _ = chunk.map Prod.fst := by
          rw [List.map_fst_zip _ _ hlen]

/-! ### Claim C1 -/

/-- C1 counterexample: with one input text and three attempts whose responses
contain no numbered line, every attempt "fails" in the claim's sense (a parse
failure), yet `translate_batch` does not return the original input — it
returns the sentinel-padded list `["[PARSE ERROR]"]`. -/
theorem translateBatch_sentinel_cex :
    (([some [], some [], some []] : List (Option (List Char))).all
        (attemptFailsSpec 1) = true) ∧
    translateBatch ["hello".data] [some [], some [], some []] = [parseErrorSentinel] ∧
    parseErrorSentinel ∈ translateBatch ["hello".data] [some [], some [], some []] ∧
    translateBatch ["hello".data] [some [], some [], some []] ≠ ["hello".data] := by
  refine ⟨by decide, by decide, by decide, by decide⟩

/-- C1 (amended): if every attempt raises an exception, `translate_batch`
returns the exact original input list — same length, same content, same
order.  (An attempt whose response parses to fewer numbered lines than
requested is NOT a failure: its sentinel-padded result has the expected
length, passes validation and is returned, so the output can contain
`"[PARSE ERROR]"`.) -/
theorem translateBatch_all_exceptions (texts : List (List Char))
    (attempts : List (Option (List Char))) (h : ∀ a ∈ attempts, a = none) :
    translateBatch texts attempts = texts := by
  unfold translateBatch
  exact translateBatchAux_all_none texts _
    (fun a ha => h a (List.take_subset 3 attempts ha))

/-- Witness for `translateBatch_all_exceptions` at a concrete input. -/
theorem translateBatch_all_exceptions_witness :
    (∀ a ∈ ([none, none, none] : List (Option (List Char))), a = none) ∧
    translateBatch ["hi".data, "yo".data] [none, none, none] = ["hi".data, "yo".data] :=
  ⟨by decide, translateBatch_all_exceptions ["hi".data, "yo".data] [none, none, none]
    (by decide)⟩

/-! ### Claim C2 -/

/-- C2 counterexample: a response with fewer numbered lines than requested is
padded with the sentinel, but validation ACCEPTS the padded result (it has
the requested length), so `translate_batch` returns the sentinel-padded list
on the first attempt instead of retrying. -/
theorem parseResponse_padding_accepted_cex :
    (parsedLines []).length < 1 ∧
    parseResponse [] 1 = [parseErrorSentinel] ∧
    isValidTranslation ["hello".data] (parseResponse [] 1) = true ∧
    translateBatch ["hello".data] [some [], none, none] = [parseErrorSentinel] := by
  refine ⟨by decide, by decide, by decide, by decide⟩

/-- C2 (amended): if the response contains fewer than `n` numbered lines
after stripping the `</think>` section, the parsed result is padded at the
end with the sentinel `"[PARSE ERROR]"` up to length `n`; the padded result
has exactly the requested length, so validation accepts it and
`translate_batch` returns the sentinel-padded list rather than retrying. -/
theorem parseResponse_pads_and_validates (r : List Char) (n : Nat)
    (texts : List (List Char)) (rest : List (Option (List Char)))
    (hlen : texts.length = n) (hshort : (parsedLines r).length < n) :
    parseResponse r n =
      parsedLines r ++ List.replicate (n - (parsedLines r).length) parseErrorSentinel ∧
    isValidTranslation texts (parseResponse r n) = true ∧
    translateBatch texts (some r :: rest) = parseResponse r n := by
  subst hlen
  refine ⟨?_, ?_, ?_⟩
  · unfold parseResponse
    simp only [hshort, if_pos]
  · unfold isValidTranslation
    rw [parseResponse_length]
    simp
  · unfold translateBatch
    simp only [List.take_succ_cons, translateBatchAux]
    have hv : isValidTranslation texts (parseResponse r texts.length) = true := by
      unfold isValidTranslation
      rw [parseResponse_length]
      simp
    simp only [hv, if_pos]

/-- Witness for `parseResponse_pads_and_validates` at a concrete input. -/
theorem parseResponse_pads_and_validates_witness :
    (["a".data, "b".data] : List (List Char)).length = 2 ∧
    (parsedLines "1. X".data).length < 2 ∧
    (parseResponse "1. X".data 2 =
        parsedLines "1. X".data ++
          List.replicate (2 - (parsedLines "1. X".data).length) parseErrorSentinel ∧
      isValidTranslation ["a".data, "b".data] (parseResponse "1. X".data 2) = true ∧
      translateBatch ["a".data, "b".data] [some "1. X".data] =
        parseResponse "1. X".data 2) :=
  ⟨rfl, by decide,
    parseResponse_pads_and_validates "1. X".data 2 ["a".data, "b".data] [] rfl (by decide)⟩

/-! ### Claim C3 -/

/-- C3 counterexample: on a response with two `</think>` markers the parser
keeps the suffix after the FIRST occurrence, not the last: the body it scans
differs from the last-occurrence suffix, and the parsed result is `["B"]`
(first numbered line after the first marker) rather than `["C"]` (the line
after the last marker). -/
theorem parseBody_not_last_occurrence_cex :
    containsB thinkMarker "1. A\n</think>\n1. B\n</think>\n1. C".data = true ∧
    parseBody "1. A\n</think>\n1. B\n</think>\n1. C".data ≠
      strip ((findSuffixAfterLast thinkMarker
        "1. A\n</think>\n1. B\n</think>\n1. C".data).getD
          "1. A\n</think>\n1. B\n</think>\n1. C".data) ∧
    parseResponse "1. A\n</think>\n1. B\n</think>\n1. C".data 1 = ["B".data] ∧
    (splitLines (strip ((findSuffixAfterLast thinkMarker
        "1. A\n</think>\n1. B\n</think>\n1. C".data).getD
          "1. A\n</think>\n1. B\n</think>\n1. C".data))).filterMap matchNumbered =
      ["C".data] := by
  refine ⟨by decide, by decide, by decide, by decide⟩

/-- C3 (amended): for every response containing the marker `</think>`, the
parser discards everything up to and including the FIRST occurrence of the
marker, keeping only the suffix after that first occurrence (then trimming
surrounding whitespace) before scanning for numbered lines. -/
theorem parseBody_after_first_marker (r : List Char)
    (h : containsB thinkMarker r = true) :
    ∃ a b, r = a ++ thinkMarker ++ b ∧ containsB thinkMarker a = false ∧
      findSuffixAfter thinkMarker r = some b ∧ parseBody r = strip b := by
  induction r with
  | nil => simp [containsB] at h
  | cons c cs ih =>
      rw [containsB, Bool.or_eq_true] at h
      by_cases hsw : startsWith thinkMarker (c :: cs) = true
      · refine ⟨[], (c :: cs).drop thinkMarker.length, ?_, rfl, ?_, ?_⟩
        · simpa using startsWith_eq_append thinkMarker (c :: cs) hsw
        · rw [findSuffixAfter, if_pos hsw]
        · unfold parseBody
          rw [findSuffixAfter, if_pos hsw]
          rfl
      · have hcs : containsB thinkMarker cs = true := by
          rcases h with h | h
          · exact absurd h hsw
          · exact h
        obtain ⟨a, b, hab, hna, hfind, hbody⟩ := ih hcs
        refine ⟨c :: a, b, by rw [List.cons_append, List.cons_append, ← hab], ?_, ?_, ?_⟩
        · rw [containsB, Bool.or_eq_false_iff]
          refine ⟨?_, hna⟩
          by_contra habs
          rw [Bool.not_eq_false] at habs
          have : startsWith thinkMarker ((c :: a) ++ (thinkMarker ++ b)) = true :=
            startsWith_append_extend thinkMarker (c :: a) (thinkMarker ++ b) habs
          rw [List.cons_append, ← List.append_assoc, ← hab] at this
          exact hsw this
        · rw [findSuffixAfter, if_neg hsw]
          exact hfind
        · unfold parseBody
          rw [findSuffixAfter, if_neg hsw, hfind, Option.getD_some]

/-- Witness for `parseBody_after_first_marker` at a concrete input. -/
theorem parseBody_after_first_marker_witness :
    containsB thinkMarker "x</think>y</think>z".data = true ∧
    (∃ a b, "x</think>y</think>z".data = a ++ thinkMarker ++ b ∧
      containsB thinkMarker a = false ∧
      findSuffixAfter thinkMarker "x</think>y</think>z".data = some b ∧
      parseBody "x</think>y</think>z".data = strip b) :=
  ⟨by decide, parseBody_after_first_marker "x</think>y</think>z".data (by decide)⟩

/-! ### Supporting lemmas: the chunker -/

theorem chunkList_cons (k : Nat) (x : α) (xs : List α) :
    chunkList k (x :: xs) = (x :: xs).take (k + 1) :: chunkList k (xs.drop k) := by
  rw [chunkList]

theorem chunkList_nil (k : Nat) : chunkList k ([] : List α) = [] := by
  rw [chunkList]

theorem chunkList_flatten (k : Nat) (l : List α) :
    (chunkList k l).flatten = l := by
  induction l using chunkList.induct k with
  | case1 => rw [chunkList_nil]; rfl
  | case2 x xs ih =>
      rw [chunkList_cons, List.flatten_cons, ih, List.take_succ_cons,
        List.cons_append, List.take_append_drop]

theorem chunkList_length_eq (k : Nat) (l : List α) :
    (chunkList k l).length = (l.length + k) / (k + 1) := by
  induction l using chunkList.induct k with
  | case1 =>
      simp only [chunkList, List.length_nil, Nat.zero_add]
      rw [Nat.div_eq_of_lt (by omega)]
  | case2 x xs ih =>
      rw [chunkList_cons, List.length_cons, ih, List.length_drop, List.length_cons]
      by_cases hk : xs.length ≤ k
      · have h1 : xs.length - k = 0 := by omega
        rw [h1]
        have h2 : (0 + k) / (k + 1) = 0 := Nat.div_eq_of_lt (by omega)
        rw [h2]
        have h3 : (xs.length + 1 + k) / (k + 1) = 1 := by
          apply Nat.div_eq_of_lt_le
          · omega
          · omega
        omega
      · have h1 : xs.length - k + k = xs.length := by omega
        rw [h1]
        have h2 : xs.length + 1 + k = xs.length + (k + 1) := by omega
        rw [h2, Nat.add_div_right _ (by omega)]

theorem chunkList_mem_bounds (k : Nat) (l : List α) :
    ∀ c ∈ chunkList k l, c ≠ [] ∧ c.length ≤ k + 1 := by
  induction l using chunkList.induct k with
  | case1 => intro c hc; simp [chunkList] at hc
  | case2 x xs ih =>
      intro c hc
      rw [chunkList_cons, List.mem_cons] at hc
      rcases hc with hc | hc
      · subst hc
        rw [List.take_succ_cons]
        refine ⟨by simp, ?_⟩
        rw [List.length_cons, List.length_take]
        omega
      · exact ih c hc

theorem chunkList_dropLast_full (k : Nat) (l : List α) :
    ∀ c ∈ (chunkList k l).dropLast, c.length = k + 1 := by
  induction l using chunkList.induct k with
  | case1 => intro c hc; simp [chunkList] at hc
  | case2 x xs ih =>
      intro c hc
      rw [chunkList_cons] at hc
      by_cases hrest : chunkList k (xs.drop k) = []
      · rw [hrest] at hc
        simp at hc
      · rw [List.dropLast_cons_of_ne_nil hrest, List.mem_cons] at hc
        rcases hc with hc | hc
        · subst hc
          have hx : xs.drop k ≠ [] := by
            intro habs
            rw [habs] at hrest
            exact hrest (chunkList_nil k)
          have hxlen : k < xs.length := by
            by_contra hle
            have : xs.length - k = 0 := by omega
            have : (xs.drop k).length = 0 := by
              rw [List.length_drop]; omega
            exact hx (List.eq_nil_of_length_eq_zero this)
          rw [List.length_take, List.length_cons]
          omega
        · exact ih c hc

theorem chunkList_mem_of_mem_chunk (k : Nat) (l : List α) :
    ∀ c ∈ chunkList k l, ∀ x ∈ c, x ∈ l := by
  intro c hc x hx
  have : x ∈ (chunkList k l).flatten := List.mem_flatten.mpr ⟨c, hc, hx⟩
  rwa [chunkList_flatten] at this

/-! ### Claim C4 -/

/-- C4: for every pending sequence and positive size, `split_into_chunks`
returns `ceil(N/S)` chunks, every chunk is nonempty of size at most `S`, all
chunks but possibly the last have size exactly `S`, and the concatenation of
the chunks equals the original sequence. -/
theorem split_into_chunks_spec (pending : List (Nat × List Char)) (size : Int)
    (h : 0 < size) :
    ∃ chunks, split_into_chunks pending size = Except.ok chunks ∧
      chunks.length = (pending.length + size.toNat - 1) / size.toNat ∧
      (∀ c ∈ chunks, c ≠ [] ∧ c.length ≤ size.toNat) ∧
      (∀ c ∈ chunks.dropLast, c.length = size.toNat) ∧
      chunks.flatten = pending := by
  have hS : 1 ≤ size.toNat := by omega
  refine ⟨chunkList (size.toNat - 1) pending, ?_, ?_, ?_, ?_, ?_⟩
  · unfold split_into_chunks
    rw [if_pos h]
  · rw [chunkList_length_eq]
    have h1 : size.toNat - 1 + 1 = size.toNat := by omega
    have h2 : pending.length + (size.toNat - 1) = pending.length + size.toNat - 1 := by
      omega
    rw [h1, h2]
  · intro c hc
    have := chunkList_mem_bounds (size.toNat - 1) pending c hc
    refine ⟨this.1, ?_⟩
    have := this.2
    omega
  · intro c hc
    have := chunkList_dropLast_full (size.toNat - 1) pending c hc
    omega
  · exact chunkList_flatten _ _

/-- Witness for `split_into_chunks_spec` at a concrete input. -/
theorem split_into_chunks_spec_witness :
    (0 : Int) < 2 ∧
    (∃ chunks, split_into_chunks [(0, "a".data), (1, "b".data), (2, "c".data)] 2 =
        Except.ok chunks ∧
      chunks.length = (3 + (2 : Int).toNat - 1) / (2 : Int).toNat ∧
      (∀ c ∈ chunks, c ≠ [] ∧ c.length ≤ (2 : Int).toNat) ∧
      (∀ c ∈ chunks.dropLast, c.length = (2 : Int).toNat) ∧
      chunks.flatten = [(0, "a".data), (1, "b".data), (2, "c".data)]) :=
  ⟨by decide, by
    have := split_into_chunks_spec [(0, "a".data), (1, "b".data), (2, "c".data)] 2
      (by decide)
    simpa using this⟩

/-! ### Claim C5 -/

/-- C5 counterexample: the chunker does NOT explicitly reject every
`size ≤ 0`; with a negative size, Python's `range(0, n, size)` is empty and
the comprehension silently returns the empty chunk list, dropping all
pending lines without an error. -/
theorem split_into_chunks_negative_silent_cex :
    (-1 : Int) ≤ 0 ∧
    split_into_chunks [(0, "a".data)] (-1) = Except.ok [] := by
  exact ⟨by decide, rfl⟩

/-- C5 (amended): `split_into_chunks` never checks its size argument; with
`size = 0` a `ValueError` escapes from `range` (an error, though not an
explicit rejection by the chunker), while with `size < 0` it silently
returns the empty chunk list instead of failing. -/
theorem split_into_chunks_nonpositive (pending : List (Nat × List Char))
    (size : Int) (h : size ≤ 0) :
    split_into_chunks pending size =
      if size = 0 then Except.error "range() arg 3 must not be zero"
      else Except.ok [] := by
  unfold split_into_chunks
  rw [if_neg (by omega)]

/-- Witness for `split_into_chunks_nonpositive` at a concrete input. -/
theorem split_into_chunks_nonpositive_witness :
    (-2 : Int) ≤ 0 ∧
    split_into_chunks [(0, "a".data)] (-2) =
      if (-2 : Int) = 0 then Except.error "range() arg 3 must not be zero"
      else Except.ok [] :=
  ⟨by decide, split_into_chunks_nonpositive [(0, "a".data)] (-2) (by decide)⟩

/-! ### Supporting lemmas: the classifier's timestamp regex -/

theorem expectChar_some (c : Char) (l r : List Char) :
    expectChar c l = some r ↔ l = c :: r := by
  cases l with
  | nil => simp [expectChar]
  | cons x xs =>
      simp only [expectChar, List.cons.injEq]
      by_cases hx : x = c
      · subst hx; simp
      · simp [hx]

theorem expectSpace_some (l r : List Char) :
    expectSpace l = some r ↔ ∃ c, l = c :: r ∧ isSpaceChar c = true := by
  cases l with
  | nil => simp [expectSpace]
  | cons x xs =>
      simp only [expectSpace]
      by_cases hx : isSpaceChar x = true
      · rw [if_pos hx]
        constructor
        · intro h
          injection h with h
          exact ⟨x, by rw [h], hx⟩
        · rintro ⟨c, hcons, hc⟩
          injection hcons with h1 h2
          rw [h2]
      · rw [if_neg hx]
        constructor
        · intro h; cases h
        · rintro ⟨c, hcons, hc⟩
          injection hcons with h1 h2
          subst h1
          exact absurd hc hx

theorem expectDigits_some (n : Nat) :
    ∀ l r : List Char, expectDigits n l = some r ↔
      ∃ d, l = d ++ r ∧ d.length = n ∧ ∀ c ∈ d, isDigitChar c = true := by
  induction n with
  | zero =>
      intro l r
      simp only [expectDigits, Option.some.injEq]
      constructor
      · intro h
        exact ⟨[], by simp [h], rfl, by simp⟩
      · rintro ⟨d, hd, hlen, _⟩
        have hnil : d = [] := List.eq_nil_of_length_eq_zero hlen
        subst hnil
        simpa using hd
  | succ n ih =>
      intro l r
      cases l with
      | nil =>
          simp only [expectDigits]
          constructor
          · intro h; cases h
          · rintro ⟨d, hd, hlen, _⟩
            have hlen2 := congrArg List.length hd
            rw [List.length_append, hlen] at hlen2
            simp only [List.length_nil] at hlen2
            exact absurd hlen2 (by omega)
      | cons x xs =>
          simp only [expectDigits]
          by_cases hx : isDigitChar x = true
          · rw [if_pos hx, ih xs r]
            constructor
            · rintro ⟨d, hd, hlen, hdig⟩
              refine ⟨x :: d, by rw [List.cons_append, hd], by simp [hlen], ?_⟩
              intro c hc
              rcases List.mem_cons.mp hc with h | h
              · subst h; exact hx
              · exact hdig c h
            · rintro ⟨d, hd, hlen, hdig⟩
              cases d with
              | nil => simp at hlen
              | cons y ds =>
                  rw [List.cons_append] at hd
                  injection hd with h1 h2
                  exact ⟨ds, h2, by simpa using hlen,
                    fun c hc => hdig c (List.mem_cons_of_mem _ hc)⟩
          · rw [if_neg hx]
            constructor
            · intro h; cases h
            · rintro ⟨d, hd, hlen, hdig⟩
              cases d with
              | nil => simp at hlen
              | cons y ds =>
                  rw [List.cons_append] at hd
                  injection hd with h1 h2
                  subst h1
                  exact absurd (hdig x (List.mem_cons_self x ds)) hx

theorem expectTimestamp_some (l r : List Char) :
    expectTimestamp l = some r ↔
      ∃ hh mm ss ms : List Char,
        l = hh ++ ':' :: (mm ++ ':' :: (ss ++ ',' :: (ms ++ r))) ∧
        hh.length = 2 ∧ mm.length = 2 ∧ ss.length = 2 ∧ ms.length = 3 ∧
        (∀ c ∈ hh, isDigitChar c = true) ∧ (∀ c ∈ mm, isDigitChar c = true) ∧
        (∀ c ∈ ss, isDigitChar c = true) ∧ (∀ c ∈ ms, isDigitChar c = true) := by
  unfold expectTimestamp
  constructor
  · intro h
    rw [Option.bind_eq_some] at h; obtain ⟨r6, h, h7⟩ := h
    rw [Option.bind_eq_some] at h; obtain ⟨r5, h, h6⟩ := h
    rw [Option.bind_eq_some] at h; obtain ⟨r4, h, h5⟩ := h
    rw [Option.bind_eq_some] at h; obtain ⟨r3, h, h4⟩ := h
    rw [Option.bind_eq_some] at h; obtain ⟨r2, h, h3⟩ := h
    rw [Option.bind_eq_some] at h; obtain ⟨r1, h, h2⟩ := h
    rw [expectDigits_some] at h; obtain ⟨hh, hl, hhlen, hhdig⟩ := h
    rw [expectChar_some] at h2
    rw [expectDigits_some] at h3; obtain ⟨mm, hr2, hmmlen, hmmdig⟩ := h3
    rw [expectChar_some] at h4
    rw [expectDigits_some] at h5; obtain ⟨ss, hr4, hsslen, hssdig⟩ := h5
    rw [expectChar_some] at h6
    rw [expectDigits_some] at h7; obtain ⟨ms, hr6, hmslen, hmsdig⟩ := h7
    subst hr6; subst h6; subst hr4; subst h4; subst hr2; subst h2; subst hl
    exact ⟨hh, mm, ss, ms, rfl, hhlen, hmmlen, hsslen, hmslen,
      hhdig, hmmdig, hssdig, hmsdig⟩
  · rintro ⟨hh, mm, ss, ms, hl, hhlen, hmmlen, hsslen, hmslen,
      hhdig, hmmdig, hssdig, hmsdig⟩
    subst hl
    simp only [Option.bind_eq_some]
    refine ⟨ms ++ r, ⟨',' :: (ms ++ r), ⟨ss ++ ',' :: (ms ++ r),
      ⟨':' :: (ss ++ ',' :: (ms ++ r)), ⟨mm ++ ':' :: (ss ++ ',' :: (ms ++ r)),
        ⟨':' :: (mm ++ ':' :: (ss ++ ',' :: (ms ++ r))), ?_, ?_⟩, ?_⟩, ?_⟩, ?_⟩, ?_⟩, ?_⟩
    · exact (expectDigits_some 2 _ _).mpr ⟨hh, rfl, hhlen, hhdig⟩
    · exact (expectChar_some ':' _ _).mpr rfl
    · exact (expectDigits_some 2 _ _).mpr ⟨mm, rfl, hmmlen, hmmdig⟩
    · exact (expectChar_some ':' _ _).mpr rfl
    · exact (expectDigits_some 2 _ _).mpr ⟨ss, rfl, hsslen, hssdig⟩
    · exact (expectChar_some ',' _ _).mpr rfl
    · exact (expectDigits_some 3 _ _).mpr ⟨ms, rfl, hmslen, hmsdig⟩

theorem isTimestampLine_iff (l : List Char) :
    isTimestampLine l = true ↔ specTimestampRange l := by
  unfold isTimestampLine
  rw [beq_iff_eq]
  constructor
  · intro h
    rw [Option.bind_eq_some] at h; obtain ⟨r6, h, h7⟩ := h
    rw [Option.bind_eq_some] at h; obtain ⟨r5, h, h6⟩ := h
    rw [Option.bind_eq_some] at h; obtain ⟨r4, h, h5⟩ := h
    rw [Option.bind_eq_some] at h; obtain ⟨r3, h, h4⟩ := h
    rw [Option.bind_eq_some] at h; obtain ⟨r2, h, h3⟩ := h
    rw [Option.bind_eq_some] at h; obtain ⟨r1, h, h2⟩ := h
    rw [expectTimestamp_some] at h
    obtain ⟨hh1, mm1, ss1, ms1, hl, l11, l12, l13, l14, d11, d12, d13, d14⟩ := h
    rw [expectSpace_some] at h2; obtain ⟨c1, hr1, hc1⟩ := h2
    rw [expectChar_some] at h3
    rw [expectChar_some] at h4
    rw [expectChar_some] at h5
    rw [expectSpace_some] at h6; obtain ⟨c2, hr5, hc2⟩ := h6
    rw [expectTimestamp_some] at h7
    obtain ⟨hh2, mm2, ss2, ms2, hr6, l21, l22, l23, l24, d21, d22, d23, d24⟩ := h7
    rw [List.append_nil] at hr6
    subst hr6; subst hr5; subst h5; subst h4; subst h3; subst hr1; subst hl
    exact ⟨hh1, mm1, ss1, ms1, hh2, mm2, ss2, ms2, c1, c2, hc1, hc2, rfl,
      l11, l12, l13, l14, l21, l22, l23, l24,
      d11, d12, d13, d14, d21, d22, d23, d24⟩
  · rintro ⟨hh1, mm1, ss1, ms1, hh2, mm2, ss2, ms2, c1, c2, hc1, hc2, hl,
      l11, l12, l13, l14, l21, l22, l23, l24,
      d11, d12, d13, d14, d21, d22, d23, d24⟩
    subst hl
    simp only [Option.bind_eq_some]
    refine ⟨hh2 ++ ':' :: (mm2 ++ ':' :: (ss2 ++ ',' :: ms2)), ?_,
      (expectTimestamp_some _ _).mpr
        ⟨hh2, mm2, ss2, ms2, by rw [List.append_nil], l21, l22, l23, l24,
          d21, d22, d23, d24⟩⟩
    refine ⟨c2 :: (hh2 ++ ':' :: (mm2 ++ ':' :: (ss2 ++ ',' :: ms2))), ?_,
      (expectSpace_some _ _).mpr ⟨c2, rfl, hc2⟩⟩
    refine ⟨'>' :: c2 :: (hh2 ++ ':' :: (mm2 ++ ':' :: (ss2 ++ ',' :: ms2))), ?_,
      (expectChar_some '>' _ _).mpr rfl⟩
    refine ⟨'-' :: '>' :: c2 :: (hh2 ++ ':' :: (mm2 ++ ':' :: (ss2 ++ ',' :: ms2))), ?_,
      (expectChar_some '-' _ _).mpr rfl⟩
    refine ⟨'-' :: '-' :: '>' :: c2 ::
        (hh2 ++ ':' :: (mm2 ++ ':' :: (ss2 ++ ',' :: ms2))), ?_,
      (expectChar_some '-' _ _).mpr rfl⟩
    refine ⟨c1 :: '-' :: '-' :: '>' :: c2 ::
        (hh2 ++ ':' :: (mm2 ++ ':' :: (ss2 ++ ',' :: ms2))),
      (expectTimestamp_some _ _).mpr
        ⟨hh1, mm1, ss1, ms1, by simp, l11, l12, l13, l14, d11, d12, d13, d14⟩,
      (expectSpace_some _ _).mpr ⟨c1, rfl, hc1⟩⟩

/-! ### Claim C7 -/

/-- C7: the classifier — a pure function of the line's content — marks a
line as non-translatable (returns `false`) if and only if, after trimming
whitespace, the line is empty, or consists solely of digits, or matches the
timestamp-range format `HH:MM:SS,mmm --> HH:MM:SS,mmm` (stated here as an
explicit structural shape, `specTimestampRange`), or consists entirely of
characters from the fixed punctuation/whitespace set; every other string is
translatable. -/
theorem should_translate_false_iff (line : List Char) :
    should_translate line = false ↔ specNonTranslatable line := by
  unfold should_translate specNonTranslatable
  rw [← isTimestampLine_iff]
  simp only [Bool.and_eq_false_iff, Bool.not_eq_false']
  unfold isDigitStr isPunctOnly
  simp only [Bool.and_eq_true, Bool.not_eq_true', List.isEmpty_eq_true,
    List.isEmpty_eq_false, List.all_eq_true]
  tauto

/-! ### Supporting lemmas: pending lines, dictionary merge, reassembly -/

theorem pendingAux_mem (ls : List (List Char)) :
    ∀ n : Nat, ∀ p ∈ pendingAux n ls,
      should_translate p.2 = true ∧ n ≤ p.1 ∧ ls[p.1 - n]? = some p.2 := by
  induction ls with
  | nil => intro n p hp; simp [pendingAux] at hp
  | cons l ls ih =>
      intro n p hp
      unfold pendingAux at hp
      by_cases hl : should_translate l = true
      · rw [if_pos hl, List.mem_cons] at hp
        rcases hp with hp | hp
        · subst hp
          refine ⟨hl, Nat.le_refl n, ?_⟩
          simp
        · obtain ⟨h1, h2, h3⟩ := ih (n + 1) p hp
          refine ⟨h1, by omega, ?_⟩
          have hidx : p.1 - n = (p.1 - (n + 1)) + 1 := by omega
          rw [hidx, List.getElem?_cons_succ]
          exact h3
      · rw [if_neg hl] at hp
        obtain ⟨h1, h2, h3⟩ := ih (n + 1) p hp
        refine ⟨h1, by omega, ?_⟩
        have hidx : p.1 - n = (p.1 - (n + 1)) + 1 := by omega
        rw [hidx, List.getElem?_cons_succ]
        exact h3

theorem get_pending_lines_mem (lines : List (List Char)) :
    ∀ p ∈ get_pending_lines lines,
      should_translate p.2 = true ∧ lines[p.1]? = some p.2 := by
  intro p hp
  have := pendingAux_mem lines 0 p hp
  exact ⟨this.1, by simpa using this.2.2⟩

theorem pendingAux_keys_nodup (ls : List (List Char)) :
    ∀ n : Nat, ((pendingAux n ls).map Prod.fst).Nodup := by
  induction ls with
  | nil => intro n; simp [pendingAux]
  | cons l ls ih =>
      intro n
      unfold pendingAux
      by_cases hl : should_translate l = true
      · rw [if_pos hl]
        simp only [List.map_cons, List.nodup_cons]
        refine ⟨?_, ih (n + 1)⟩
        intro habs
        obtain ⟨p, hp, hfst⟩ := List.mem_map.mp habs
        have := (pendingAux_mem ls (n + 1) p hp).2.1
        omega
      · rw [if_neg hl]
        exact ih (n + 1)

theorem get_pending_lines_keys_nodup (lines : List (List Char)) :
    ((get_pending_lines lines).map Prod.fst).Nodup :=
  pendingAux_keys_nodup lines 0

theorem translate_chunk_keys (tr : List (List Char) → List (List Char))
    (chunk : List (Nat × List Char)) :
    ∀ e ∈ translate_chunk tr chunk, ∃ q ∈ chunk, q.1 = e.1 := by
  intro e he
  unfold translate_chunk at he
  obtain ⟨p, hp, hfe⟩ := List.mem_map.mp he
  have hmem := List.of_mem_zip hp
  exact ⟨p.1, hmem.1, by rw [← hfe]⟩

theorem dfind_eq_none (m : List (Nat × List Char)) (i : Nat)
    (h : ∀ e ∈ m, e.1 ≠ i) : dfind m i = none := by
  induction m with
  | nil => rfl
  | cons e rest ih =>
      obtain ⟨k, v⟩ := e
      unfold dfind
      rw [ih (fun e he => h e (List.mem_cons_of_mem _ he))]
      rw [if_neg (h (k, v) (List.mem_cons_self _ _))]

theorem dfind_cons (k : Nat) (v : List Char) (rest : List (Nat × List Char))
    (i : Nat) :
    dfind ((k, v) :: rest) i =
      match dfind rest i with
      | some w => some w
      | none => if k = i then some v else none := rfl

theorem dfind_some_mem (m : List (Nat × List Char)) (i : Nat) :
    ∀ v, dfind m i = some v → ∃ e ∈ m, e.1 = i := by
  induction m with
  | nil => intro v h; cases h
  | cons e rest ih =>
      obtain ⟨k, w⟩ := e
      intro v h
      rw [dfind_cons] at h
      cases hrest : dfind rest i with
      | some u =>
          obtain ⟨e, he, hei⟩ := ih u hrest
          exact ⟨e, List.mem_cons_of_mem _ he, hei⟩
      | none =>
          rw [hrest] at h
          by_cases hk : k = i
          · exact ⟨(k, w), List.mem_cons_self _ _, hk⟩
          · rw [if_neg hk] at h
            cases h

theorem dfind_append (m1 m2 : List (Nat × List Char)) (i : Nat) :
    dfind (m1 ++ m2) i =
      match dfind m2 i with
      | some w => some w
      | none => dfind m1 i := by
  induction m1 with
  | nil =>
      simp only [List.nil_append]
      cases h : dfind m2 i <;> simp [h, dfind]
  | cons e rest ih =>
      obtain ⟨k, v⟩ := e
      rw [List.cons_append, dfind_cons, dfind_cons, ih]
      cases h : dfind m2 i with
      | some w => simp [h]
      | none => simp [h]

theorem buildFinal_length (m : List (Nat × List Char)) (ls : List (List Char)) :
    ∀ n : Nat, (buildFinal m n ls).length = ls.length := by
  induction ls with
  | nil => intro n; rfl
  | cons l ls ih =>
      intro n
      unfold buildFinal
      rw [List.length_cons, List.length_cons, ih]

theorem buildFinal_getElem (m : List (Nat × List Char)) (ls : List (List Char)) :
    ∀ n i : Nat, (buildFinal m n ls)[i]? =
      (ls[i]?).map (fun l => (dfind m (n + i)).getD l) := by
  induction ls with
  | nil => intro n i; simp [buildFinal]
  | cons l ls ih =>
      intro n i
      unfold buildFinal
      cases i with
      | zero => simp
      | succ j =>
          rw [List.getElem?_cons_succ, List.getElem?_cons_succ, ih (n + 1) j]
          have : n + 1 + j = n + (j + 1) := by omega
          rw [this]

theorem mergedTranslations_keys (tr : List (List Char) → List (List Char))
    (completed : List (List (Nat × List Char))) (k : Nat)
    (lines : List (List Char))
    (hperm : completed.Perm (chunkList k (get_pending_lines lines))) :
    ∀ e ∈ mergedTranslations tr completed,
      ∃ q ∈ get_pending_lines lines, q.1 = e.1 := by
  intro e he
  unfold mergedTranslations at he
  obtain ⟨t, ht, het⟩ := List.mem_flatten.mp he
  obtain ⟨chunk, hchunk, htc⟩ := List.mem_map.mp ht
  subst htc
  obtain ⟨q, hq, hqi⟩ := translate_chunk_keys tr chunk e het
  have hchunk2 : chunk ∈ chunkList k (get_pending_lines lines) :=
    hperm.mem_iff.mp hchunk
  exact ⟨q, chunkList_mem_of_mem_chunk k (get_pending_lines lines) chunk hchunk2 q hq,
    hqi⟩

/-! ### Claim C6 -/

/-- C6: for any completion order of the chunks, the reassembled output has
exactly as many lines as the input; at every position the output is the
merged translation when the position is in the merged mapping and the
original line otherwise; in particular every line classified as structural
(non-translatable) appears verbatim at its original position. -/
theorem do_translate_core_spec (tr : List (List Char) → List (List Char))
    (k : Nat) (lines : List (List Char))
    (completed : List (List (Nat × List Char)))
    (hperm : completed.Perm (chunkList k (get_pending_lines lines))) :
    (do_translate_core tr lines completed).length = lines.length ∧
    ∀ i : Nat, ∀ orig : List Char, lines[i]? = some orig →
      (do_translate_core tr lines completed)[i]? =
        some ((dfind (mergedTranslations tr completed) i).getD orig) ∧
      (should_translate orig = false →
        (do_translate_core tr lines completed)[i]? = some orig) := by
  refine ⟨buildFinal_length _ _ 0, ?_⟩
  intro i orig hline
  have hget : (do_translate_core tr lines completed)[i]? =
      some ((dfind (mergedTranslations tr completed) i).getD orig) := by
    unfold do_translate_core
    rw [buildFinal_getElem, hline]
    simp
  refine ⟨hget, ?_⟩
  intro hstruct
  have hnone : dfind (mergedTranslations tr completed) i = none := by
    cases hd : dfind (mergedTranslations tr completed) i with
    | none => rfl
    | some v =>
        exfalso
        obtain ⟨e, he, hei⟩ := dfind_some_mem _ _ v hd
        obtain ⟨q, hq, hqi⟩ :=
          mergedTranslations_keys tr completed k lines hperm e he
        obtain ⟨htr, hgq⟩ := get_pending_lines_mem lines q hq
        rw [hqi, hei, hline] at hgq
        injection hgq with hgq
        rw [← hgq] at htr
        rw [htr] at hstruct
        simp at hstruct
  rw [hget, hnone]
  rfl

/-- Witness for `do_translate_core_spec` at a concrete input: a structural
line (a digits-only index) passes through verbatim. -/
theorem do_translate_core_spec_witness :
    (["1", "Hello"].map String.data)[0]? = some "1".data ∧
    (do_translate_core (fun ts => ts) (["1", "Hello"].map String.data)
        (chunkList 0 (get_pending_lines (["1", "Hello"].map String.data))))[0]? =
      some "1".data :=
  ⟨by decide,
    ((do_translate_core_spec (fun ts => ts) 0 (["1", "Hello"].map String.data)
        (chunkList 0 (get_pending_lines (["1", "Hello"].map String.data)))
        (List.Perm.refl _)).2 0 "1".data (by decide)).2 (by decide)⟩

/-! ### Supporting lemmas: chunk key disjointness -/

theorem flatten_nodup_pairwise {α β : Type} [DecidableEq β] (f : α → β) :
    ∀ L : List (List α), (L.flatten.map f).Nodup →
      L.Pairwise (fun c1 c2 => ∀ p ∈ c1, ∀ q ∈ c2, f p ≠ f q) := by
  intro L
  induction L with
  | nil => intro _; exact List.Pairwise.nil
  | cons c L ih =>
      intro h
      rw [List.flatten_cons, List.map_append, List.nodup_append] at h
      obtain ⟨h1, h2, h3⟩ := h
      refine List.Pairwise.cons ?_ (ih h2)
      intro b hb p hp q hq
      intro habs
      have hfp : f p ∈ c.map f := List.mem_map.mpr ⟨p, hp, rfl⟩
      have hfq : f q ∈ L.flatten.map f :=
        List.mem_map.mpr ⟨q, List.mem_flatten.mpr ⟨b, hb, hq⟩, rfl⟩
      rw [habs] at hfp
      exact h3 hfp hfq

theorem chunkList_pairwise_disjoint (lines : List (List Char)) (k : Nat) :
    (chunkList k (get_pending_lines lines)).Pairwise
      (fun c1 c2 => ∀ p ∈ c1, ∀ q ∈ c2, p.1 ≠ q.1) := by
  apply flatten_nodup_pairwise Prod.fst
  rw [chunkList_flatten]
  exact get_pending_lines_keys_nodup lines

theorem mergedTranslations_mem (tr : List (List Char) → List (List Char))
    (L : List (List (Nat × List Char))) :
    ∀ e ∈ mergedTranslations tr L, ∃ chunk ∈ L, ∃ q ∈ chunk, q.1 = e.1 := by
  intro e he
  unfold mergedTranslations at he
  obtain ⟨t, ht, het⟩ := List.mem_flatten.mp he
  obtain ⟨chunk, hchunk, htc⟩ := List.mem_map.mp ht
  subst htc
  obtain ⟨q, hq, hqi⟩ := translate_chunk_keys tr chunk e het
  exact ⟨chunk, hchunk, q, hq, hqi⟩

/-! ### Claim C8 -/

/-- C8: for any completion order of a file's chunks, the merged translation
mapping's keys are a subset of the file's pending-line positions, no position
is contributed by two different chunks (the chunks' position sets are
pairwise disjoint), and once a position's value is merged (present after any
prefix of the completion sequence) it is never overwritten by a later chunk
completion. -/
theorem merge_mapping_invariant (tr : List (List Char) → List (List Char))
    (k : Nat) (lines : List (List Char))
    (completed : List (List (Nat × List Char)))
    (hperm : completed.Perm (chunkList k (get_pending_lines lines))) :
    (∀ e ∈ mergedTranslations tr completed,
      ∃ q ∈ get_pending_lines lines, q.1 = e.1) ∧
    completed.Pairwise (fun c1 c2 => ∀ p ∈ c1, ∀ q ∈ c2, p.1 ≠ q.1) ∧
    (∀ pre suf, completed = pre ++ suf → ∀ i v,
      dfind (mergedTranslations tr pre) i = some v →
      dfind (mergedTranslations tr completed) i = some v) := by
  have hsymm : ∀ {c1 c2 : List (Nat × List Char)},
      (∀ p ∈ c1, ∀ q ∈ c2, p.1 ≠ q.1) → (∀ p ∈ c2, ∀ q ∈ c1, p.1 ≠ q.1) :=
    fun h p hp q hq habs => (h q hq p hp) habs.symm
  have hpw : completed.Pairwise (fun c1 c2 => ∀ p ∈ c1, ∀ q ∈ c2, p.1 ≠ q.1) :=
    (List.Perm.pairwise_iff hsymm hperm).mpr (chunkList_pairwise_disjoint lines k)
  refine ⟨mergedTranslations_keys tr completed k lines hperm, hpw, ?_⟩
  intro pre suf hsplit i v hpre
  subst hsplit
  have hm : mergedTranslations tr (pre ++ suf) =
      mergedTranslations tr pre ++ mergedTranslations tr suf := by
    unfold mergedTranslations
    rw [List.map_append, List.flatten_append]
  rw [hm, dfind_append]
  have hs : dfind (mergedTranslations tr suf) i = none := by
    apply dfind_eq_none
    intro e he habs
    obtain ⟨chunk2, hchunk2, q2, hq2, hq2i⟩ := mergedTranslations_mem tr suf e he
    obtain ⟨e1, he1, he1i⟩ := dfind_some_mem _ _ v hpre
    obtain ⟨chunk1, hchunk1, q1, hq1, hq1i⟩ := mergedTranslations_mem tr pre e1 he1
    have hcross := (List.pairwise_append.mp hpw).2.2 chunk1 hchunk1 chunk2 hchunk2
    exact hcross q1 hq1 q2 hq2 (by rw [hq1i, hq2i, he1i, habs])
  rw [hs]
  exact hpre

/-- Witness for `merge_mapping_invariant` at a concrete input: two chunks
completing in reversed order; the value merged by the first completion
survives the second. -/
theorem merge_mapping_invariant_witness :
    dfind (mergedTranslations (fun ts => ts)
      [[(1, "World".data)], [(0, "Hello".data)]]) 1 = some "World".data :=
  (merge_mapping_invariant (fun ts => ts) 0
      (["Hello", "World"].map String.data)
      [[(1, "World".data)], [(0, "Hello".data)]]
      (by
        have hg : get_pending_lines (["Hello", "World"].map String.data) =
            [(0, "Hello".data), (1, "World".data)] := by decide
        have h : chunkList 0
            (get_pending_lines (["Hello", "World"].map String.data)) =
            [[(0, "Hello".data)], [(1, "World".data)]] := by
          rw [hg, chunkList_cons]
          simp [chunkList_cons, chunkList_nil]
        rw [h]
        decide)).2.2
    [[(1, "World".data)]] [[(0, "Hello".data)]] rfl 1 "World".data (by decide)

/-! ### Claim C9 -/

theorem process_directory_invoked_subset (tf : List Char → List Char)
    (names : List (List Char)) :
    ∀ fs : List Char → Option (List Char),
      ∀ x ∈ (process_directory tf names fs).2, x ∈ names := by
  induction names with
  | nil => intro fs x hx; simp [process_directory] at hx
  | cons name rest ih =>
      intro fs x hx
      by_cases hsrt : endsWithSrt name = true
      · by_cases hex : (fs (outName name)).isSome = true
        · rw [process_directory, if_pos hsrt, if_pos hex] at hx
          exact List.mem_cons_of_mem _ (ih fs x hx)
        · rw [process_directory, if_pos hsrt, if_neg hex] at hx
          rcases List.mem_cons.mp hx with heq | hx2
          · exact heq ▸ List.mem_cons_self _ _
          · exact List.mem_cons_of_mem _ (ih _ x hx2)
      · rw [process_directory, if_neg hsrt] at hx
        exact List.mem_cons_of_mem _ (ih fs x hx)

/-- C9: if a path `p` already holds content `c` in the file-system state,
then after `process_directory` runs, `p` still holds exactly `c`
(the existing output file is byte-identical), and no input file whose
output name is `p` is ever passed to `do_translate` (so the translation
client is never invoked for it). -/
theorem process_directory_skip_existing (tf : List Char → List Char)
    (names : List (List Char)) (fs : List Char → Option (List Char))
    (p : List Char) (c : List Char) (h : fs p = some c) :
    (process_directory tf names fs).1 p = some c ∧
    ∀ name ∈ names, outName name = p →
      name ∉ (process_directory tf names fs).2 := by
  induction names generalizing fs with
  | nil =>
      exact ⟨h, fun name hname _ => absurd hname (List.not_mem_nil name)⟩
  | cons name rest ih =>
      by_cases hsrt : endsWithSrt name = true
      · by_cases hex : (fs (outName name)).isSome = true
        · rw [process_directory, if_pos hsrt, if_pos hex]
          obtain ⟨h1, h2⟩ := ih fs h
          refine ⟨h1, ?_⟩
          intro nm hnm hout habs
          have hnmrest : nm ∈ rest :=
            process_directory_invoked_subset tf rest fs nm habs
          exact h2 nm hnmrest hout habs
        · have hne : p ≠ outName name := by
            intro habs
            apply hex
            rw [← habs, h]
            rfl
          have hfs1 : (fun q => if q = outName name then some (tf name)
              else fs q) p = some c := by
            simp only [if_neg hne]
            exact h
          rw [process_directory, if_pos hsrt, if_neg hex]
          obtain ⟨h1, h2⟩ :=
            ih (fun q => if q = outName name then some (tf name) else fs q) hfs1
          refine ⟨h1, ?_⟩
          intro nm hnm hout habs
          rcases List.mem_cons.mp habs with heq | habs2
          · subst heq
            exact hne hout.symm
          · have hnmrest : nm ∈ rest :=
              process_directory_invoked_subset tf rest _ nm habs2
            exact h2 nm hnmrest hout habs2
      · rw [process_directory, if_neg hsrt]
        obtain ⟨h1, h2⟩ := ih fs h
        refine ⟨h1, ?_⟩
        intro nm hnm hout habs
        have hnmrest : nm ∈ rest :=
          process_directory_invoked_subset tf rest fs nm habs
        exact h2 nm hnmrest hout habs

/-- Witness for `process_directory_skip_existing` at a concrete input: the
pre-existing output `a_cn.srt` keeps its content and `a.srt` is never
translated. -/
theorem process_directory_skip_existing_witness :
    (process_directory (fun _ => "t".data) ["a.srt".data]
        (fun q => if q = "a_cn.srt".data then some "x".data else none)).1
      "a_cn.srt".data = some "x".data ∧
    "a.srt".data ∉ (process_directory (fun _ => "t".data) ["a.srt".data]
        (fun q => if q = "a_cn.srt".data then some "x".data else none)).2 :=
  ⟨(process_directory_skip_existing (fun _ => "t".data) ["a.srt".data]
      (fun q => if q = "a_cn.srt".data then some "x".data else none)
      "a_cn.srt".data "x".data (by decide)).1,
    (process_directory_skip_existing (fun _ => "t".data) ["a.srt".data]
      (fun q => if q = "a_cn.srt".data then some "x".data else none)
      "a_cn.srt".data "x".data (by decide)).2 "a.srt".data
      (List.mem_cons_self _ _) (by simp [outName, replaceAll, startsWith])⟩
